import Mathlib

set_option autoImplicit false
set_option linter.unusedVariables false

namespace WorkflowAI

/-! Byte-level embedding of `APIClient._wrap_sse` (src/workflowai/core/client/_api.py).
Bytes are modelled as `Nat` values; byte strings as `List Nat`. -/

/-- The SSE frame-start marker `b"data: "`. -/
def dataMark : List Nat := [100, 97, 116, 97, 58, 32]

/-- The SSE frame terminator `b"\n\n"` (the default `termination_chars`). -/
def termMark : List Nat := [10, 10]

/-- The inter-frame separator `b"\n\ndata: "` used by `data.split`. -/
def sepMark : List Nat := [10, 10, 100, 97, 116, 97, 58, 32]

/-- Whether `pat` occurs as a contiguous subsequence of `l`
(Python's `pat in l` for bytes). -/
def hasSub (pat : List Nat) : List Nat → Bool
  | [] => pat.isEmpty
  | l@(_ :: t) => pat.isPrefixOf l || hasSub pat t

/-- Fueled worker for `splitSSE`; fuel is structurally decreasing so that the
function reduces in the kernel.  With fuel at least `l.length` this computes
Python's `l.split(sepMark)` (leftmost, non-overlapping). -/
def splitGo : Nat → List Nat → List (List Nat)
  | _, [] => [[]]
  | 0, l => [l]
  | fuel + 1, l@(b :: t) =>
    if sepMark.isPrefixOf l then [] :: splitGo fuel (l.drop 8)
    else
      match splitGo fuel t with
      | [] => [[b]]
      | h :: r => (b :: h) :: r

/-- Python's `data.split(b"\n\ndata: ")`. -/
def splitSSE (l : List Nat) : List (List Nat) := splitGo l.length l

/-- The mutable state of `_wrap_sse`: the byte buffer `data` and the
`in_data` flag. -/
structure SSEState where
  data : List Nat
  inData : Bool
  deriving Repr, DecidableEq

/-- The body of `_wrap_sse`'s loop once the buffer is known to be inside a
data field: split on the separator, emit every piece but the last, then if
the remainder ends with the terminator emit it (stripped) and reset. -/
def processInData (data : List Nat) : SSEState × List (List Nat) :=
  let splits := splitSSE data
  let frames := splits.dropLast
  let d := splits.getLastD []
  match termMark.isSuffixOf d with
  | true => (⟨[], false⟩, frames ++ [d.take (d.length - 2)])
  | false => (⟨d, true⟩, frames)

/-- One iteration of `_wrap_sse`'s `async for chunk in raw` loop: append the
chunk to the buffer; when not yet inside a data field, wait unless the
buffer starts with the marker, which is then stripped. -/
def processChunk (s : SSEState) (chunk : List Nat) : SSEState × List (List Nat) :=
  match s.inData, dataMark.isPrefixOf (s.data ++ chunk) with
  | true, _ => processInData (s.data ++ chunk)
  | false, true => processInData ((s.data ++ chunk).drop 6)
  | false, false => (⟨s.data ++ chunk, false⟩, [])

/-- Run `_wrap_sse` over a whole list of chunks from a given state,
returning the final state and the concatenated emitted frames. -/
def runSSE (s : SSEState) : List (List Nat) → SSEState × List (List Nat)
  | [] => (s, [])
  | c :: cs =>
    let p := processChunk s c
    let q := runSSE p.1 cs
    (q.1, p.2 ++ q.2)

/-- The ordered frame sequence `_wrap_sse` emits for a chunked stream
(leftover bytes at end-of-stream are only logged, never emitted). -/
def wrapSSE (chunks : List (List Nat)) : List (List Nat) :=
  (runSSE ⟨[], false⟩ chunks).2

/-- A frame is well formed when `b"\n\n"` does not occur in it and it does
not end with `b"\n"`; equivalently `b"\n\n"` does not occur in `f ++ b"\n"`. -/
def goodFrame (f : List Nat) : Bool := !hasSub termMark (f ++ [10])

/-- The wire encoding of one frame: `b"data: " ++ f ++ b"\n\n"`. -/
def encodeFrame (f : List Nat) : List Nat := dataMark ++ f ++ termMark

/-- The wire encoding of a well-formed frame sequence. -/
def encodeSSE (F : List (List Nat)) : List Nat := (F.map encodeFrame).flatten

/-- The wire encoding with the leading `b"data: "` stripped:
what the buffer plus the remaining input amounts to while `in_data` holds. -/
def tailSSE : List (List Nat) → List Nat
  | [] => []
  | f :: Fs => f ++ termMark ++ encodeSSE Fs

/-- The reachable-configuration invariant of `_wrap_sse` at a chunk boundary:
`F` is the list of frames not yet emitted and `rest` the bytes still to
arrive.  Either we are outside a data field with at most a partial start
marker buffered, or we are inside one with a buffer that contains no
separator and does not end with the terminator. -/
def InvSSE (F : List (List Nat)) (rest : List Nat) (s : SSEState) : Prop :=
  (s.inData = false ∧ (∃ k, k ≤ 5 ∧ s.data = dataMark.take k) ∧
    s.data ++ rest = encodeSSE F)
  ∨ (s.inData = true ∧ s.data ++ rest = tailSSE F ∧ F ≠ [] ∧
    hasSub sepMark s.data = false ∧ termMark.isSuffixOf s.data = false)

/-! JSON values and pydantic-style type descriptors, used by the tolerant
decoder (`partial_model` and `construct_model_recursive` in
src/workflowai/core/utils/_pydantic.py).  Mutual inductives (instead of
nested `List`) keep every function structurally recursive.  Numbers are
collapsed to `Int`: the decoders never compute with them, they only move
them around, so the int/float distinction is immaterial here. -/

mutual
inductive JVal where
  | jnull : JVal
  | jstr (s : String) : JVal
  | jnum (n : Int) : JVal
  | jlist (l : JArr) : JVal
  | jobj (o : JMap) : JVal

inductive JArr where
  | anil : JArr
  | acons (v : JVal) (rest : JArr) : JArr

inductive JMap where
  | mnil : JMap
  | mcons (k : String) (v : JVal) (rest : JMap) : JMap
end

deriving instance DecidableEq for JVal, JArr, JMap

/-- Python dict lookup on a JSON object (object keys are unique). -/
def JMap.lookup : JMap → String → Option JVal
  | .mnil, _ => none
  | .mcons k v rest, k2 => if k = k2 then some v else JMap.lookup rest k2

/-- The keys of a JSON object, in insertion order. -/
def JMap.keys : JMap → List String
  | .mnil => []
  | .mcons k _ rest => k :: JMap.keys rest

/-- Whether a JSON value is a scalar (not an object or a list). -/
def JVal.isScalar : JVal → Bool
  | .jobj _ => false
  | .jlist _ => false
  | _ => true

/-- Whether every value of a JSON object is a scalar. -/
def JMap.scalarVals : JMap → Bool
  | .mnil => true
  | .mcons _ v rest => v.isScalar && JMap.scalarVals rest

mutual
/-- A pydantic field annotation, reduced to the shapes the decoders
structurally interpret: scalars, `Optional`, homogeneous lists, string-keyed
mappings, nested models, and `sany` for any annotation the decoder cannot
interpret (passed through unchanged). -/
inductive Shape where
  | sstr : Shape
  | snum : Shape
  | sany : Shape
  | sopt (inner : Shape) : Shape
  | slist (elem : Shape) : Shape
  | smap (val : Shape) : Shape
  | sobj (fields : Fields) : Shape

inductive Fields where
  | fnil : Fields
  | fcons (name : String) (shape : Shape) (dflt : Option JVal) (rest : Fields) : Fields
end

/-- Declared field names of a model, in declaration order. -/
def Fields.names : Fields → List String
  | .fnil => []
  | .fcons n _ _ rest => n :: Fields.names rest

/-- `model.model_fields[k]`: the first declared field named `k`, as its
shape and declared default. -/
def Fields.find : Fields → String → Option (Shape × Option JVal)
  | .fnil, _ => none
  | .fcons n s d rest, k => if n = k then some (s, d) else Fields.find rest k

/-- Shapes whose tolerant decode returns a present value unchanged. -/
def scalarShape : Shape → Bool
  | .sstr => true
  | .snum => true
  | .sany => true
  | _ => false

mutual
/-- Modelled from the spec: the per-shape zero value used by `partial_model`
(missing from src/workflowai/core/utils/_pydantic.py; only its tests are
present): empty string, zero number, empty collection, `None` for optional
or uninterpreted annotations, and a recursively zero-valued nested object,
with a field's own declared default taking precedence. -/
def zeroVal : Shape → JVal
  | .sstr => .jstr ""
  | .snum => .jnum 0
  | .sany => .jnull
  | .sopt _ => .jnull
  | .slist _ => .jlist .anil
  | .smap _ => .jobj .mnil
  | .sobj fs => .jobj (zeroFields fs)

def zeroFields : Fields → JMap
  | .fnil => .mnil
  | .fcons n s d rest => .mcons n (d.getD (zeroVal s)) (zeroFields rest)
end

/-- A validation error: the location path of the offending field and the
received value. -/
structure PErr where
  path : List String
  got : JVal
  deriving DecidableEq

/-- Element-wise decoding of a JSON array, propagating the first error. -/
def mapArrM (f : JVal → Except PErr JVal) : JArr → Except PErr JArr
  | .anil => .ok .anil
  | .acons v rest => do
    let w ← f v
    let ws ← mapArrM f rest
    .ok (.acons w ws)

/-- Value-wise decoding of a JSON object, propagating the first error. -/
def mapValsM (f : JVal → Except PErr JVal) : JMap → Except PErr JMap
  | .mnil => .ok .mnil
  | .mcons k v rest => do
    let w ← f v
    let ws ← mapValsM f rest
    .ok (.mcons k w ws)

mutual
/-- Modelled from the spec: the tolerant decoder `partial_model` (missing
from src/workflowai/core/utils/_pydantic.py; only its tests are present).
A present field value is validated against its declared shape — scalars must
match exactly, optionals accept null, lists element-wise, string-keyed maps
value-wise, nested models recursively with the same tolerant rule —
and an uninterpreted annotation passes through unchanged.  An absent field
is filled with its declared default, else the shape's zero value. -/
def decodeValue : Shape → JVal → Except PErr JVal
  | .sstr, v =>
    match v with
    | .jstr s => .ok (.jstr s)
    | _ => .error ⟨[], v⟩
  | .snum, v =>
    match v with
    | .jnum n => .ok (.jnum n)
    | _ => .error ⟨[], v⟩
  | .sany, v => .ok v
  | .sopt s, v =>
    match v with
    | .jnull => .ok .jnull
    | _ => decodeValue s v
  | .slist s, v =>
    match v with
    | .jlist l => (mapArrM (decodeValue s) l).map .jlist
    | _ => .error ⟨[], v⟩
  | .smap s, v =>
    match v with
    | .jobj o => (mapValsM (decodeValue s) o).map .jobj
    | _ => .error ⟨[], v⟩
  | .sobj fs, v =>
    match v with
    | .jobj o => (decodeFields fs o).map .jobj
    | _ => .error ⟨[], v⟩

def decodeFields : Fields → JMap → Except PErr JMap
  | .fnil, _ => .ok .mnil
  | .fcons n s d rest, payload =>
    match payload.lookup n with
    | some v =>
      match decodeValue s v with
      | .ok w => (decodeFields rest payload).map (JMap.mcons n w)
      | .error e => .error ⟨n :: e.path, e.got⟩
    | none => (decodeFields rest payload).map (JMap.mcons n (d.getD (zeroVal s)))
end

/-- Whether `f` holds of every element of a JSON array. -/
def allArr (f : JVal → Bool) : JArr → Bool
  | .anil => true
  | .acons v rest => f v && allArr f rest

/-- Whether `f` holds of every value of a JSON object. -/
def allVals (f : JVal → Bool) : JMap → Bool
  | .mnil => true
  | .mcons _ v rest => f v && allVals f rest

mutual
/-- Modelled from the spec: the strict decode applied to the terminal frame
of a stream and to non-streaming responses (the plain pydantic validation in
the missing agent code): every declared field must be present with a
shape-conforming value, or carry a declared default. -/
def strictValue : Shape → JVal → Bool
  | .sstr, v =>
    match v with
    | .jstr _ => true
    | _ => false
  | .snum, v =>
    match v with
    | .jnum _ => true
    | _ => false
  | .sany, _ => true
  | .sopt s, v =>
    match v with
    | .jnull => true
    | _ => strictValue s v
  | .slist s, v =>
    match v with
    | .jlist l => allArr (strictValue s) l
    | _ => false
  | .smap s, v =>
    match v with
    | .jobj o => allVals (strictValue s) o
    | _ => false
  | .sobj fs, v =>
    match v with
    | .jobj o => strictFields fs o
    | _ => false

def strictFields : Fields → JMap → Bool
  | .fnil, _ => true
  | .fcons n s d rest, payload =>
    (match payload.lookup n with
      | some v => strictValue s v
      | none => d.isSome) && strictFields rest payload
end

/-! Faithful embedding of `construct_model_recursive` and its helpers
`_construct_for_annotation`, `_construct_object`, `_construct_list`
(src/workflowai/core/utils/_pydantic.py). -/

/-- The exceptions `construct_model_recursive` can raise: `KeyError` from
the unguarded `model.model_fields[k]` lookup, and `AttributeError` from
calling `.items()` on a non-dict list element. -/
inductive CErr where
  | keyError (k : String) : CErr
  | attrError : CErr
  deriving DecidableEq

/-- `model.model_construct(None, **mapped)`: declared fields take their
mapped value when present, else their declared default, else stay unset. -/
def modelConstruct : Fields → JMap → JMap
  | .fnil, _ => .mnil
  | .fcons n _ d rest, mapped =>
    match mapped.lookup n with
    | some v => .mcons n v (modelConstruct rest mapped)
    | none =>
      match d with
      | some dv => .mcons n dv (modelConstruct rest mapped)
      | none => modelConstruct rest mapped

mutual
/-- `_construct_for_annotation`: dict payloads go to `_construct_object`
(nested model, or value-wise for string-keyed mappings, else passthrough),
list payloads to `_construct_list` (element-wise for a collection of models,
else passthrough), anything else is returned as is. -/
def constructForAnn : Shape → JVal → Except CErr JVal
  | ann, .jobj o =>
    match ann with
    | .sobj fs => (buildMapped fs o).map (fun m => .jobj (modelConstruct fs m))
    | .smap vt => (constructVals vt o).map .jobj
    | _ => .ok (.jobj o)
  | ann, .jlist l =>
    match ann with
    | .slist (.sobj fs) => (constructElems fs l).map .jlist
    | _ => .ok (.jlist l)
  | _, v => .ok v

/-- The `{k: _construct_for_annotation(value_type, v) for k, v in payload.items()}`
comprehension of `_construct_object` for `Mapping[str, T]` annotations. -/
def constructVals : Shape → JMap → Except CErr JMap
  | _, .mnil => .ok .mnil
  | vt, .mcons k v rest => do
    let w ← constructForAnn vt v
    let ws ← constructVals vt rest
    .ok (.mcons k w ws)

/-- The `[construct_model_recursive(args[0], item) for item in payload]`
comprehension of `_construct_list`: a non-dict element makes
`payload.items()` raise `AttributeError`. -/
def constructElems : Fields → JArr → Except CErr JArr
  | _, .anil => .ok .anil
  | fs, .acons v rest =>
    match v with
    | .jobj p => do
      let m ← buildMapped fs p
      let ws ← constructElems fs rest
      .ok (.acons (.jobj (modelConstruct fs m)) ws)
    | _ => .error .attrError

/-- The `for k, v in payload.items()` loop of `construct_model_recursive`:
an unknown key hits the unguarded `model.model_fields[k]` and raises
`KeyError`. -/
def buildMapped : Fields → JMap → Except CErr JMap
  | _, .mnil => .ok .mnil
  | fs, .mcons k v rest =>
    match fs.find k with
    | none => .error (.keyError k)
    | some sd => do
      let w ← constructForAnn sd.1 v
      let ws ← buildMapped fs rest
      .ok (.mcons k w ws)
end

/-- `construct_model_recursive(model, payload)`
(src/workflowai/core/utils/_pydantic.py, lines 71-79). -/
def constructModelRecursive (fs : Fields) (payload : JMap) : Except CErr JMap :=
  (buildMapped fs payload).map (modelConstruct fs)

/-! The version reconciler.  `Agent._sanitize_version` and
`global_default_version_reference` live in files missing from src/
(`agent.py` and `_utils.py`; only their tests are present), so they are
modelled from the spec (section 4.3) under the constraints of those tests. -/

/-- A version descriptor: a string alias, an integer iteration, or a
properties bag. -/
structure VersionProperties where
  model : Option String
  provider : Option String
  temperature : Option Rat
  instructions : Option String
  deriving Repr, DecidableEq

/-- The all-unset properties bag. -/
def VersionProperties.unset : VersionProperties := ⟨none, none, none, none⟩

/-- One of the three shapes of a version reference. -/
inductive VersionRef where
  | name (s : String) : VersionRef
  | iteration (n : Int) : VersionRef
  | props (p : VersionProperties) : VersionRef
  deriving Repr, DecidableEq

/-- Field-by-field merge of a properties bag over a base: a field explicitly
set on `override` wins, an unset one falls back to `base`. -/
def mergeProps (base override : VersionProperties) : VersionProperties :=
  ⟨override.model <|> base.model,
   override.provider <|> base.provider,
   override.temperature <|> base.temperature,
   override.instructions <|> base.instructions⟩

/-- The model filled into a properties bag that ends up without one. -/
def defaultModel : String := "gemini-1.5-pro-latest"

/-- The version environments recognized as aliases. -/
def recognizedEnvs : List String := ["dev", "staging", "production"]

/-- Decimal digits of Python's `int()` on the configured string, without
sign handling beyond a leading minus (the tests only exercise plain
numerals). -/
def parseNatGo : List Char → Nat → Option Nat
  | [], acc => some acc
  | c :: cs, acc =>
    if 48 ≤ c.toNat ∧ c.toNat ≤ 57 then parseNatGo cs (acc * 10 + (c.toNat - 48))
    else none

/-- A simplified Python `int(s)`: an optional leading minus followed by at
least one decimal digit. -/
def parseIntString (s : String) : Option Int :=
  match s.toList with
  | [] => none
  | c :: cs =>
    if c.toNat = 45 then
      match cs with
      | [] => none
      | _ => (parseNatGo cs 0).map (fun n => -(n : Int))
    else (parseNatGo (c :: cs) 0).map (fun n => (n : Int))

/-- Fill in the default model when a properties bag has none. -/
def fillModel (p : VersionProperties) : VersionProperties :=
  match p.model with
  | some _ => p
  | none => { p with model := some defaultModel }

/-- Modelled from the spec: `global_default_version_reference`
(missing src/workflowai/core/client/_utils.py; its test is present):
the process-wide default version read from the `WORKFLOWAI_DEFAULT_VERSION`
configuration value, here threaded as an explicit argument.  Unset or empty
yields the sentinel alias "production"; a recognized environment alias is
kept; a numeric string becomes an integer iteration; anything else falls
back to "production".  (Python's `int()` accepts a little more lenience,
e.g. surrounding whitespace, than `String.toInt?`; no claim depends on
that fringe.) -/
def globalDefaultVersionReference (envVar : Option String) : VersionRef :=
  match envVar with
  | none => .name "production"
  | some s =>
    if s = "" then .name "production"
    else if s ∈ recognizedEnvs then .name s
    else
      match parseIntString s with
      | some n => .iteration n
      | none => .name "production"

/-- Modelled from the spec: `Agent._sanitize_version` (missing
src/workflowai/core/client/agent.py; only its tests are present), per spec
section 4.3: an explicit call version wins, else the agent's declared
version, else a bare model override becomes a fresh bag, else the
process-wide default.  A remote reference (alias/iteration) combined with a
model override is discarded for a fresh bag with only that model (the empty
instructions template).  A properties version is merged field-by-field over
the agent's default properties, the call's model override wins, and a bag
that still has no model receives the default model. -/
def sanitizeVersion (agentVersion : Option VersionRef) (envVar : Option String)
    (callVersion : Option VersionRef) (callModel : Option String) : VersionRef :=
  match callVersion.orElse fun _ => agentVersion with
  | none =>
    match callModel with
    | some m => .props ⟨some m, none, none, none⟩
    | none =>
      match globalDefaultVersionReference envVar with
      | .name s => .name s
      | .iteration n => .iteration n
      | .props p => .props (fillModel p)
  | some (.name s) =>
    match callModel with
    | none => .name s
    | some m => .props ⟨some m, none, none, none⟩
  | some (.iteration n) =>
    match callModel with
    | none => .iteration n
    | some m => .props ⟨some m, none, none, none⟩
  | some (.props p) =>
    let base :=
      match agentVersion with
      | some (.props q) => q
      | _ => VersionProperties.unset
    let merged := mergeProps base p
    let withModel :=
      match callModel with
      | some m => { merged with model := some m }
      | none => merged
    .props (fillModel withModel)

/-! The streaming decode loop of the run orchestrator (`Agent._stream`,
missing from src/; its tests are present), modelled from the spec:
non-terminal frames are decoded tolerantly and a failing frame is skipped
with a diagnostic, the terminal frame is decoded strictly and a failure
there is fatal, carrying the offending payload and the run id. -/

/-- One parsed stream frame: the run id and the raw output payload. -/
structure StreamChunk where
  runId : String
  payload : JMap
  deriving DecidableEq

/-- The fatal error of a failing terminal decode: it carries the
originating run id and the offending raw output. -/
structure StreamFatal where
  runId : String
  partialOutput : JMap
  deriving DecidableEq

/-- Modelled from the spec: the stream consumption loop.  Each non-terminal
frame is tolerantly decoded; a failure is recorded as a diagnostic and the
frame is skipped.  The terminal frame must pass the strict decode, else the
whole stream fails with the offending payload and run id. -/
def streamRun (fs : Fields) : List StreamChunk → Except StreamFatal (List JMap × List PErr)
  | [] => .ok ([], [])
  | [c] =>
    if strictFields fs c.payload then
      match decodeFields fs c.payload with
      | .ok out => .ok ([out], [])
      | .error _ => .error ⟨c.runId, c.payload⟩
    else .error ⟨c.runId, c.payload⟩
  | c :: c2 :: rest =>
    match decodeFields fs c.payload with
    | .ok out =>
      match streamRun fs (c2 :: rest) with
      | .ok (outs, ds) => .ok (out :: outs, ds)
      | .error e => .error e
    | .error e =>
      match streamRun fs (c2 :: rest) with
      | .ok (outs, ds) => .ok (outs, e :: ds)
      | .error e2 => .error e2

/-! The run retry policy (`Agent.run` retries via `build_retryable_wait`,
missing from src/; tests are present), modelled from the spec:
429 and connection errors are transient and retried within an attempt
budget; exhaustion turns into a fatal error of the kind of the last
underlying cause. -/

/-- The outcome of one HTTP attempt. -/
inductive Attempt where
  | success (payload : String) : Attempt
  | rateLimited (retryAfterMs : Nat) : Attempt
  | connectionFailure : Attempt
  deriving DecidableEq

/-- The kind of a transient failure. -/
inductive TransientKind where
  | rateLimited : TransientKind
  | connection : TransientKind
  deriving Repr, DecidableEq

/-- The final outcome of a run with retries, counting the attempts made. -/
inductive RunResult where
  | ok (payload : String) (attempts : Nat) : RunResult
  | fatal (last : Option TransientKind) (attempts : Nat) : RunResult
  deriving DecidableEq

/-- Modelled from the spec: the retry loop with a remaining attempt budget,
the attempts used so far, and the last transient failure seen. -/
def retryGo : Nat → List Attempt → Nat → Option TransientKind → RunResult
  | 0, _, used, last => .fatal last used
  | _ + 1, [], used, last => .fatal last used
  | budget + 1, r :: rs, used, last =>
    match r with
    | .success p => .ok p (used + 1)
    | .rateLimited _ => retryGo budget rs (used + 1) (some .rateLimited)
    | .connectionFailure => retryGo budget rs (used + 1) (some .connection)

/-- Modelled from the spec: a run with at most `maxRetryCount` attempts,
fed the per-attempt outcomes in order. -/
def runWithRetry (maxRetryCount : Nat) (responses : List Attempt) : RunResult :=
  retryGo maxRetryCount responses 0 none

/-! The reply retry rule (`Agent.reply`, missing from src/; tests are
present), modelled from the spec: HTTP 404 on a reply endpoint is retried
exactly once (an eventually-consistent read-after-write race); any other
error is raised immediately. -/

/-- The outcome of one reply request. -/
inductive ReplyResp where
  | ok (payload : String) : ReplyResp
  | err (status : Nat) (code : String) : ReplyResp
  deriving DecidableEq

/-- The final outcome of a reply call, counting the requests made. -/
inductive ReplyResult where
  | ok (payload : String) (requests : Nat) : ReplyResult
  | failure (status : Nat) (code : String) (requests : Nat) : ReplyResult
  | noResponse : ReplyResult
  deriving DecidableEq

/-- Modelled from the spec: a reply call retries exactly once on a 404 and
otherwise surfaces the error of the attempt that failed. -/
def replyRun : List ReplyResp → ReplyResult
  | [] => .noResponse
  | .ok p :: _ => .ok p 1
  | .err s c :: rest =>
    if s = 404 then
      match rest with
      | [] => .noResponse
      | .ok p :: _ => .ok p 2
      | .err s2 c2 :: _ => .failure s2 c2 2
    else .failure s c 1

/-! ### Lemmas: boolean substring matching over byte lists -/

theorem isPrefixOf_iff_ex (p l : List Nat) : p.isPrefixOf l = true ↔ ∃ t, l = p ++ t := by
  induction p generalizing l with
  | nil => simp [List.isPrefixOf]
  | cons a p ih =>
    cases l with
    | nil => simp [List.isPrefixOf]
    | cons b t =>
      simp only [List.isPrefixOf, Bool.and_eq_true, beq_iff_eq, ih, List.cons_append,
        List.cons.injEq]
      constructor
      · rintro ⟨rfl, u, rfl⟩
        exact ⟨u, rfl, rfl⟩
      · rintro ⟨u, rfl, rfl⟩
        exact ⟨rfl, u, rfl⟩

theorem isSuffixOf_iff_ex (p l : List Nat) : p.isSuffixOf l = true ↔ ∃ t, l = t ++ p := by
  rw [List.isSuffixOf, isPrefixOf_iff_ex]
  constructor
  · rintro ⟨t, ht⟩
    refine ⟨t.reverse, ?_⟩
    have := congrArg List.reverse ht
    simpa using this
  · rintro ⟨t, rfl⟩
    exact ⟨t.reverse, by simp⟩

theorem hasSub_iff_ex (p l : List Nat) : hasSub p l = true ↔ ∃ u v, l = u ++ p ++ v := by
  induction l with
  | nil =>
    simp only [hasSub, List.isEmpty_iff]
    constructor
    · rintro rfl
      exact ⟨[], [], rfl⟩
    · rintro ⟨u, v, huv⟩
      rcases List.append_eq_nil.mp huv.symm with ⟨h1, h2⟩
      exact (List.append_eq_nil.mp h1).2
  | cons b t ih =>
    simp only [hasSub, Bool.or_eq_true, isPrefixOf_iff_ex, ih]
    constructor
    · rintro (⟨w, hw⟩ | ⟨u, v, huv⟩)
      · exact ⟨[], w, by simpa using hw⟩
      · exact ⟨b :: u, v, by simp [huv]⟩
    · rintro ⟨u, v, huv⟩
      cases u with
      | nil => exact Or.inl ⟨v, by simpa using huv⟩
      | cons c u =>
        rcases List.cons.injEq .. ▸ huv with ⟨rfl, h⟩
        · exact Or.inr ⟨u, v, by simpa using huv⟩

theorem hasSub_false_of_append_right (p x t : List Nat)
    (h : hasSub p (x ++ t) = false) : hasSub p x = false := by
  by_contra hx
  rw [Bool.not_eq_false, hasSub_iff_ex] at hx
  obtain ⟨u, v, rfl⟩ := hx
  rw [Bool.eq_false_iff, Ne, hasSub_iff_ex] at h
  exact h ⟨u, v ++ t, by simp⟩

theorem hasSub_of_isSuffixOf (p l : List Nat) (h : p.isSuffixOf l = true) :
    hasSub p l = true := by
  rw [isSuffixOf_iff_ex] at h
  obtain ⟨t, rfl⟩ := h
  rw [hasSub_iff_ex]
  exact ⟨t, [], by simp⟩

theorem hasSub_term_of_sep (l : List Nat) (h : hasSub sepMark l = true) :
    hasSub termMark l = true := by
  rw [hasSub_iff_ex] at h ⊢
  obtain ⟨u, v, rfl⟩ := h
  exact ⟨u, [100, 97, 116, 97, 58, 32] ++ v, by simp [sepMark, termMark]⟩

theorem takeLenAppend (a b : List Nat) : (a ++ b).take a.length = a := by
  induction a with
  | nil => simp
  | cons x a ih => simp [ih]

theorem dropLenAppend (a b : List Nat) : (a ++ b).drop a.length = b := by
  induction a with
  | nil => simp
  | cons x a ih => simp [ih]

/-- A tail of a good frame is a good frame. -/
theorem goodFrame_tail (b : Nat) (f : List Nat) (h : goodFrame (b :: f) = true) :
    goodFrame f = true := by
  simp only [goodFrame, Bool.not_eq_true'] at h ⊢
  have hc : (b :: f) ++ [10] = b :: (f ++ [10]) := by simp
  rw [hc] at h
  simp only [hasSub, Bool.or_eq_false_iff] at h
  exact h.2

/-! ### Lemmas: the fueled splitter computes Python's `bytes.split` -/

theorem splitGo_nil (fuel : Nat) : splitGo fuel [] = [[]] := by
  cases fuel <;> rfl

theorem splitGo_succ_cons (fuel b : Nat) (t : List Nat) :
    splitGo (fuel + 1) (b :: t) =
      if sepMark.isPrefixOf (b :: t) then [] :: splitGo fuel ((b :: t).drop 8)
      else
        match splitGo fuel t with
        | [] => [[b]]
        | h :: r => (b :: h) :: r := rfl

theorem splitGo_ne_nil (fuel : Nat) (l : List Nat) : splitGo fuel l ≠ [] := by
  induction fuel generalizing l with
  | zero => cases l <;> simp [splitGo]
  | succ n ih =>
    cases l with
    | nil => simp [splitGo_nil]
    | cons b t =>
      rw [splitGo_succ_cons]
      by_cases hp : sepMark.isPrefixOf (b :: t) = true
      · simp [hp]
      · rw [if_neg (by simp [hp])]
        rcases hgo : splitGo n t with _ | ⟨h, r⟩ <;> simp

theorem splitGo_congr (f1 : Nat) : ∀ (f2 : Nat) (l : List Nat),
    l.length ≤ f1 → l.length ≤ f2 → splitGo f1 l = splitGo f2 l := by
  induction f1 with
  | zero =>
    intro f2 l h1 h2
    have : l = [] := List.length_eq_zero.mp (Nat.le_zero.mp h1)
    subst this
    rw [splitGo_nil, splitGo_nil]
  | succ n ih =>
    intro f2 l h1 h2
    cases l with
    | nil => rw [splitGo_nil, splitGo_nil]
    | cons b t =>
      cases f2 with
      | zero => simp at h2
      | succ m =>
        rw [splitGo_succ_cons, splitGo_succ_cons]
        by_cases hp : sepMark.isPrefixOf (b :: t) = true
        · rw [if_pos hp, if_pos hp]
          have hlen : 8 ≤ (b :: t).length := by
            obtain ⟨u, hu⟩ := (isPrefixOf_iff_ex _ _).mp hp
            rw [hu]
            simp [sepMark]
          have hd1 : ((b :: t).drop 8).length ≤ n := by
            rw [List.length_drop]
            omega
          have hd2 : ((b :: t).drop 8).length ≤ m := by
            rw [List.length_drop]
            omega
          rw [ih m _ hd1 hd2]
        · rw [if_neg (by simp [hp]), if_neg (by simp [hp])]
          have ht1 : t.length ≤ n := by
            simpa using Nat.le_of_succ_le_succ h1
          have ht2 : t.length ≤ m := by
            simpa using Nat.le_of_succ_le_succ h2
          rw [ih m t ht1 ht2]

theorem splitSSE_ne_nil (l : List Nat) : splitSSE l ≠ [] := splitGo_ne_nil _ _

theorem splitSSE_nil : splitSSE [] = [[]] := rfl

/-- A byte string without the separator is left in one piece. -/
theorem splitSSE_of_not_sub (l : List Nat) (h : hasSub sepMark l = false) :
    splitSSE l = [l] := by
  suffices H : ∀ (fuel : Nat) (x : List Nat), x.length ≤ fuel →
      hasSub sepMark x = false → splitGo fuel x = [x] from H l.length l le_rfl h
  intro fuel
  induction fuel with
  | zero =>
    intro x hx _
    have : x = [] := List.length_eq_zero.mp (Nat.le_zero.mp hx)
    subst this
    rw [splitGo_nil]
  | succ n ih =>
    intro x hx hsub
    cases x with
    | nil => rw [splitGo_nil]
    | cons b t =>
      simp only [hasSub, Bool.or_eq_false_iff] at hsub
      rw [splitGo_succ_cons, if_neg (by simp [hsub.1]), ih t (by simpa using Nat.le_of_succ_le_succ hx) hsub.2]

/-- Splitting after a good frame followed by the separator peels the frame. -/
theorem splitSSE_cons_frame (f : List Nat) (hf : goodFrame f = true) (y : List Nat) :
    splitSSE (f ++ sepMark ++ y) = f :: splitSSE y := by
  suffices H : ∀ (f : List Nat), goodFrame f = true → ∀ (fuel : Nat) (y : List Nat),
      (f ++ sepMark ++ y).length ≤ fuel →
      splitGo fuel (f ++ sepMark ++ y) = f :: splitSSE y from
    H f hf _ y le_rfl
  intro f
  induction f with
  | nil =>
    intro _ fuel y hlen
    have h8 : 8 + y.length ≤ fuel := by
      simp only [List.nil_append, List.length_append, sepMark, List.length_cons,
        List.length_nil] at hlen
      omega
    cases fuel with
    | zero => omega
    | succ n =>
      have hsep : sepMark ++ y = 10 :: (10 :: 100 :: 97 :: 116 :: 97 :: 58 :: 32 :: y) := by
        simp [sepMark]
      rw [List.nil_append, hsep, splitGo_succ_cons, if_pos (by
        rw [← hsep, isPrefixOf_iff_ex]
        exact ⟨y, rfl⟩)]
      have hdrop : (10 :: 10 :: 100 :: 97 :: 116 :: 97 :: 58 :: 32 :: y).drop 8 = y := rfl
      rw [hdrop, splitGo_congr n y.length y (by omega) le_rfl]
      rfl
  | cons b f2 ih =>
    intro hgood fuel y hlen
    cases fuel with
    | zero => simp at hlen
    | succ n =>
      have hform : (b :: f2) ++ sepMark ++ y = b :: (f2 ++ sepMark ++ y) := by simp
      rw [hform, splitGo_succ_cons, if_neg ?hneg]
      case hneg =>
        intro hp
        rw [isPrefixOf_iff_ex] at hp
        obtain ⟨t, ht⟩ := hp
        simp only [sepMark, List.cons_append, List.cons.injEq] at ht
        obtain ⟨rfl, ht2⟩ := ht
        cases f2 with
        | nil => simp [sepMark] at ht2
        | cons c f3 =>
          simp only [List.cons_append, List.cons.injEq] at ht2
          obtain ⟨rfl, _⟩ := ht2
          simp [goodFrame, hasSub, termMark, List.isPrefixOf] at hgood
      · rw [ih (goodFrame_tail _ _ hgood) n y (by
          simp only [List.length_append, List.length_cons, sepMark, List.length_nil] at hlen ⊢
          omega)]

/-! ### Lemmas: occurrences of the terminator around a good frame -/

/-- The separator is terminator-then-start-marker. -/
theorem sepMark_eq : sepMark = termMark ++ dataMark := rfl

/-- In `f ++ "\n\n" ++ "data: "` with `f` a good frame, the terminator
occurs exactly once, right after `f`. -/
theorem termOcc_unique (f u v : List Nat) (hf : goodFrame f = true)
    (heq : f ++ termMark ++ dataMark = u ++ termMark ++ v) :
    u = f ∧ v = dataMark := by
  have hgood : hasSub termMark (f ++ [10]) = false := by
    simpa [goodFrame, Bool.not_eq_true'] using hf
  rw [List.append_assoc, List.append_assoc] at heq
  rcases List.append_eq_append_iff.mp heq with ⟨a, ha, hrest⟩ | ⟨c, hc, hrest⟩
  · cases a with
    | nil =>
      simp only [List.append_nil] at ha
      simp only [termMark, dataMark, List.cons_append, List.nil_append,
        List.cons.injEq] at hrest
      exact ⟨ha, by simp [dataMark, hrest]⟩
    | cons x a2 =>
      exfalso
      simp only [termMark, dataMark, List.cons_append, List.nil_append,
        List.cons.injEq] at hrest
      obtain ⟨rfl, hrest2⟩ := hrest
      cases a2 with
      | nil => simp [termMark] at hrest2
      | cons y a3 =>
        simp only [List.cons_append, List.cons.injEq] at hrest2
        obtain ⟨rfl, hrest3⟩ := hrest2
        have hmem : (10 : Nat) ∈ a3 ++ 10 :: 10 :: v := by simp
        rw [← hrest3] at hmem
        exact absurd hmem (by decide)
  · cases c with
    | nil =>
      simp only [List.append_nil] at hc
      simp only [termMark, List.cons_append, List.nil_append, List.cons.injEq] at hrest
      exact ⟨hc.symm, hrest.2.2⟩
    | cons x c2 =>
      exfalso
      simp only [termMark, List.cons_append, List.nil_append, List.cons.injEq] at hrest
      obtain ⟨rfl, hrest2⟩ := hrest
      cases c2 with
      | nil =>
        simp only [List.nil_append, List.cons.injEq] at hrest2
        rw [Bool.eq_false_iff, Ne, hasSub_iff_ex] at hgood
        exact hgood ⟨u, [], by simp [termMark, hc]⟩
      | cons y c3 =>
        simp only [List.cons_append, List.cons.injEq] at hrest2
        obtain ⟨rfl, _⟩ := hrest2
        rw [Bool.eq_false_iff, Ne, hasSub_iff_ex] at hgood
        refine hgood ⟨u, c3 ++ [10], ?_⟩
        rw [hc]
        simp [termMark]

/-- The separator does not occur in a good frame followed by the
terminator. -/
theorem noSep_frame_term (f : List Nat) (hf : goodFrame f = true) :
    hasSub sepMark (f ++ termMark) = false := by
  rw [Bool.eq_false_iff, Ne, hasSub_iff_ex]
  rintro ⟨u, v, huv⟩
  have heq : f ++ termMark ++ dataMark = u ++ termMark ++ (dataMark ++ v ++ dataMark) := by
    have := congrArg (· ++ dataMark) huv
    simpa [sepMark_eq, List.append_assoc] using this
  have := (termOcc_unique f u _ hf heq).2
  have hlen := congrArg List.length this
  simp only [List.length_append, dataMark, List.length_cons, List.length_nil] at hlen
  omega

/-- The separator does not occur in any proper prefix of
`f ++ "\n\n" ++ "data: "` when `f` is a good frame. -/
theorem noSep_in_front (f x w : List Nat) (hf : goodFrame f = true)
    (hx : x ++ w = f ++ termMark ++ dataMark) (hw : w ≠ []) :
    hasSub sepMark x = false := by
  rw [Bool.eq_false_iff, Ne, hasSub_iff_ex]
  rintro ⟨u, v, rfl⟩
  have heq : f ++ termMark ++ dataMark = u ++ termMark ++ (dataMark ++ v ++ w) := by
    rw [← hx]
    simp [sepMark_eq, List.append_assoc]
  have := (termOcc_unique f u _ hf heq).2
  have hlen := congrArg List.length this
  simp only [List.length_append] at hlen
  exact hw (List.length_eq_zero.mp (by omega))

/-- The terminator is not a suffix of a proper prefix of
`f ++ "\n\n" ++ "data: "` other than `f ++ "\n\n"` itself. -/
theorem noTermSuffix_in_front (f x w : List Nat) (hf : goodFrame f = true)
    (hx : x ++ w = f ++ termMark ++ dataMark) (hw : w ≠ [])
    (hne : x ≠ f ++ termMark) : termMark.isSuffixOf x = false := by
  rw [Bool.eq_false_iff, Ne, isSuffixOf_iff_ex]
  rintro ⟨t, rfl⟩
  have heq : f ++ termMark ++ dataMark = t ++ termMark ++ w := by
    rw [← hx]
  have hp := termOcc_unique f t w hf heq
  exact hne (by rw [hp.1])

/-! ### Lemmas: computing `processInData` -/

theorem getLastD_irrel {α : Type} (l : List α) (h : l ≠ []) (d d' : α) :
    l.getLastD d = l.getLastD d' := by
  induction l generalizing d d' with
  | nil => exact absurd rfl h
  | cons a l ih =>
    cases l with
    | nil => rfl
    | cons b t => exact ih (by simp) a a

theorem dropLast_cons_ne {α : Type} (a : α) (l : List α) (h : l ≠ []) :
    (a :: l).dropLast = a :: l.dropLast := by
  cases l with
  | nil => exact absurd rfl h
  | cons b t => rfl

theorem getLastD_one {α : Type} (a d : α) : List.getLastD [a] d = a := rfl

theorem dropLast_one {α : Type} (a : α) : List.dropLast [a] = [] := rfl

/-- The body of `processInData`, written out. -/
theorem processInData_def (data : List Nat) :
    processInData data =
      match termMark.isSuffixOf ((splitSSE data).getLastD []) with
      | true => (⟨[], false⟩, (splitSSE data).dropLast ++
          [((splitSSE data).getLastD []).take ((((splitSSE data).getLastD []).length) - 2)])
      | false => (⟨(splitSSE data).getLastD [], true⟩, (splitSSE data).dropLast) := rfl

/-- A buffer with no separator and no trailing terminator is kept whole. -/
theorem processInData_keep (x : List Nat) (hsep : hasSub sepMark x = false)
    (hterm : termMark.isSuffixOf x = false) :
    processInData x = (⟨x, true⟩, []) := by
  rw [processInData_def, splitSSE_of_not_sub x hsep, getLastD_one, dropLast_one, hterm]

/-- A buffer with no separator that ends with the terminator is flushed. -/
theorem processInData_flush (x : List Nat) (hsep : hasSub sepMark x = false)
    (hterm : termMark.isSuffixOf x = true) :
    processInData x = (⟨[], false⟩, [x.take (x.length - 2)]) := by
  rw [processInData_def, splitSSE_of_not_sub x hsep, getLastD_one, dropLast_one, hterm]
  simp

/-- A good frame followed by the separator is emitted first; the rest of the
buffer is processed as before. -/
theorem processInData_cons (f : List Nat) (hf : goodFrame f = true) (y : List Nat) :
    processInData (f ++ sepMark ++ y) =
      ((processInData y).1, f :: (processInData y).2) := by
  have hne := splitSSE_ne_nil y
  have hlast : (f :: splitSSE y).getLastD [] = (splitSSE y).getLastD [] := by
    rw [List.getLastD_cons, getLastD_irrel _ hne]
  rw [processInData_def, processInData_def, splitSSE_cons_frame f hf y, hlast,
    dropLast_cons_ne f _ hne]
  cases termMark.isSuffixOf ((splitSSE y).getLastD []) <;> rfl

/-- The wire encoding of a nonempty frame list starts with the marker. -/
theorem encodeSSE_cons (f : List Nat) (Fs : List (List Nat)) :
    encodeSSE (f :: Fs) = dataMark ++ tailSSE (f :: Fs) := by
  simp [encodeSSE, encodeFrame, tailSSE]

/-- `tailSSE` with the first junction made explicit. -/
theorem tailSSE_cons (f : List Nat) (Fs : List (List Nat)) :
    tailSSE (f :: Fs) = (f ++ termMark) ++ encodeSSE Fs := by
  simp [tailSSE]

/-! ### The invariant step for `processInData` -/

theorem processInData_spec (F : List (List Nat)) :
    (∀ f ∈ F, goodFrame f = true) → F ≠ [] → ∀ (x y : List Nat),
    x ++ y = tailSSE F →
    ∃ F1 F2, F = F1 ++ F2 ∧ (processInData x).2 = F1 ∧
      InvSSE F2 y (processInData x).1 := by
  induction F with
  | nil => intro _ hne; exact absurd rfl hne
  | cons f Fs ih =>
    intro hgood _ x y hxy
    have hf : goodFrame f = true := hgood f (by simp)
    rw [tailSSE_cons] at hxy
    -- the flush outcome, shared by two branches below
    have flush : y = encodeSSE Fs → x = f ++ termMark →
        ∃ F1 F2, f :: Fs = F1 ++ F2 ∧ (processInData x).2 = F1 ∧
          InvSSE F2 y (processInData x).1 := by
      rintro hy rfl
      rw [processInData_flush _ (noSep_frame_term f hf)
        ((isSuffixOf_iff_ex _ _).mpr ⟨f, rfl⟩)]
      refine ⟨[f], Fs, by simp, ?_, ?_⟩
      · have : (f ++ termMark).length - 2 = f.length := by
          simp [termMark]
        rw [this, takeLenAppend]
      · exact Or.inl ⟨rfl, ⟨0, by omega, rfl⟩, by simpa using hy⟩
    rcases List.append_eq_append_iff.mp hxy with ⟨a, ha, hy⟩ | ⟨c, hc, hcy⟩
    · cases a with
      | nil =>
        rw [List.append_nil] at ha
        exact flush (by simpa using hy) ha.symm
      | cons a0 a2 =>
        -- x is a proper prefix of f ++ termMark: buffer everything
        have hxw : x ++ ((a0 :: a2) ++ dataMark) = f ++ termMark ++ dataMark := by
          rw [← List.append_assoc, ← ha]
        have hxne : x ≠ f ++ termMark := by
          rintro rfl
          have := congrArg List.length ha
          simp at this
        rw [processInData_keep x
          (noSep_in_front f x _ hf hxw (by simp))
          (noTermSuffix_in_front f x _ hf hxw (by simp) hxne)]
        refine ⟨[], f :: Fs, by simp, rfl, Or.inr ⟨rfl, ?_, by simp, ?_, ?_⟩⟩
        · rw [tailSSE_cons]; exact hxy
        · exact noSep_in_front f x _ hf hxw (by simp)
        · exact noTermSuffix_in_front f x _ hf hxw (by simp) hxne
    · -- x = (f ++ termMark) ++ c
      cases Fs with
      | nil =>
        have hc0 : c = [] := by
          have := congrArg List.length hcy
          simp [encodeSSE] at this
          exact List.length_eq_zero.mp (by omega)
        subst hc0
        rw [List.append_nil] at hc
        have hy0 : y = [] := by
          simpa [encodeSSE] using hcy.symm
        exact flush (by simp [hy0, encodeSSE]) hc
      | cons f2 Fs2 =>
        rw [encodeSSE_cons] at hcy
        rcases List.append_eq_append_iff.mp hcy.symm with ⟨q, hq, hyq⟩ | ⟨c2, hc2, hyc2⟩
        · cases q with
          | nil =>
            -- c = dataMark exactly: a fresh frame begins with nothing buffered yet
            rw [List.append_nil] at hq
            have hx : x = f ++ sepMark ++ [] := by
              rw [hc, ← hq, sepMark_eq]
              simp
            have hrec := ih (fun g hg => hgood g (by simp [hg])) (by simp) []
              y (by simpa using hyq)
            obtain ⟨F1, F2, hsplit, hout, hinv⟩ := hrec
            rw [hx, processInData_cons f hf []]
            exact ⟨f :: F1, F2, by simp [hsplit], by simp [hout], hinv⟩
          | cons q0 q2 =>
            cases c with
            | nil =>
              -- c is empty: x is exactly f ++ termMark, flush applies
              refine flush ?_ (by simpa using hc)
              rw [encodeSSE_cons, hq]
              simpa using hyq
            | cons c0 c1 =>
              -- c is a nonempty proper prefix of dataMark: keep buffering
              have hxw : x ++ (q0 :: q2) = f ++ termMark ++ dataMark := by
                rw [hc, hq]
                simp
              have hxne : x ≠ f ++ termMark := by
                rw [hc]
                intro hcontra
                have hn : (f ++ termMark) ++ (c0 :: c1) = (f ++ termMark) ++ [] := by
                  rw [List.append_nil]
                  exact hcontra
                simpa using List.append_cancel_left hn
              rw [processInData_keep x
                (noSep_in_front f x _ hf hxw (by simp))
                (noTermSuffix_in_front f x _ hf hxw (by simp) hxne)]
              refine ⟨[], f :: f2 :: Fs2, by simp, rfl, Or.inr ⟨rfl, ?_, by simp, ?_, ?_⟩⟩
              · rw [tailSSE_cons]
                exact hxy
              · exact noSep_in_front f x _ hf hxw (by simp)
              · exact noTermSuffix_in_front f x _ hf hxw (by simp) hxne
        · -- c = dataMark ++ c2: the separator is complete, recurse past it
          have hx : x = f ++ sepMark ++ c2 := by
            rw [hc, hc2, sepMark_eq]
            simp
          have hrec := ih (fun g hg => hgood g (by simp [hg])) (by simp) c2 y hyc2.symm
          obtain ⟨F1, F2, hsplit, hout, hinv⟩ := hrec
          rw [hx, processInData_cons f hf c2]
          exact ⟨f :: F1, F2, by simp [hsplit], by simp [hout], hinv⟩

/-! ### The invariant is preserved chunk by chunk -/

/-- The body of `processChunk`, written out. -/
theorem processChunk_def (s : SSEState) (c : List Nat) :
    processChunk s c =
      match s.inData, dataMark.isPrefixOf (s.data ++ c) with
      | true, _ => processInData (s.data ++ c)
      | false, true => processInData ((s.data ++ c).drop 6)
      | false, false => (⟨s.data ++ c, false⟩, []) := rfl

theorem processChunk_inv (F : List (List Nat)) (hgood : ∀ f ∈ F, goodFrame f = true)
    (c rest : List Nat) (s : SSEState) (hinv : InvSSE F (c ++ rest) s) :
    ∃ F1 F2, F = F1 ++ F2 ∧ (processChunk s c).2 = F1 ∧
      InvSSE F2 rest (processChunk s c).1 := by
  rcases hinv with ⟨hfalse, ⟨k, hk, hdata⟩, heq⟩ | ⟨htrue, heq, hFne, hsep, hterm⟩
  · have heqb : (s.data ++ c) ++ rest = encodeSSE F := by
      rw [List.append_assoc]
      exact heq
    cases F with
    | nil =>
      have hb : s.data ++ c = [] ∧ rest = [] := by
        simpa [encodeSSE] using List.append_eq_nil.mp heqb
      rw [processChunk_def, hfalse, hb.1]
      have hpre : dataMark.isPrefixOf ([] : List Nat) = false := rfl
      rw [hpre]
      exact ⟨[], [], rfl, rfl, Or.inl ⟨rfl, ⟨0, by omega, rfl⟩, by simp [hb.2, encodeSSE]⟩⟩
    | cons f Fs =>
      rw [encodeSSE_cons] at heqb
      rcases List.append_eq_append_iff.mp heqb with ⟨a, ha, hra⟩ | ⟨d, hd, hrd⟩
      · cases a with
        | nil =>
          rw [List.append_nil] at ha
          have hpre : dataMark.isPrefixOf (s.data ++ c) = true :=
            (isPrefixOf_iff_ex _ _).mpr ⟨[], by simp [ha]⟩
          rw [processChunk_def, hfalse, hpre]
          have hdrop : (s.data ++ c).drop 6 = [] := by
            rw [← ha]
            rfl
          rw [hdrop]
          exact processInData_spec (f :: Fs) hgood (by simp) [] rest
            (by simpa using hra)
        | cons a0 a2 =>
          have h6 : dataMark.length = 6 := rfl
          have hlt : (s.data ++ c).length ≤ 5 := by
            have hlen := congrArg List.length ha
            rw [List.length_append, List.length_cons, h6] at hlen
            omega
          have hpre : dataMark.isPrefixOf (s.data ++ c) = false := by
            rw [Bool.eq_false_iff, Ne, isPrefixOf_iff_ex]
            rintro ⟨t, ht⟩
            rw [ht, List.length_append, h6] at hlt
            omega
          rw [processChunk_def, hfalse, hpre]
          refine ⟨[], f :: Fs, by simp, rfl,
            Or.inl ⟨rfl, ⟨(s.data ++ c).length, hlt, ?_⟩, ?_⟩⟩
          · rw [ha, takeLenAppend]
          · rw [List.append_assoc, encodeSSE_cons]
            exact heq
      · have hpre : dataMark.isPrefixOf (s.data ++ c) = true :=
          (isPrefixOf_iff_ex _ _).mpr ⟨d, hd⟩
        rw [processChunk_def, hfalse, hpre]
        have hdrop : (s.data ++ c).drop 6 = d := by
          rw [hd]
          exact dropLenAppend dataMark d
        rw [hdrop]
        exact processInData_spec (f :: Fs) hgood (by simp) d rest hrd.symm
  · rw [processChunk_def, htrue]
    exact processInData_spec F hgood hFne (s.data ++ c) rest
      (by rw [List.append_assoc]; exact heq)

/-- Unfolding `runSSE` over a chunk. -/
theorem runSSE_cons (s : SSEState) (c : List Nat) (cs : List (List Nat)) :
    runSSE s (c :: cs) =
      ((runSSE (processChunk s c).1 cs).1,
        (processChunk s c).2 ++ (runSSE (processChunk s c).1 cs).2) := rfl

theorem runSSE_inv (cs : List (List Nat)) : ∀ (F : List (List Nat)) (s : SSEState),
    (∀ f ∈ F, goodFrame f = true) → InvSSE F cs.flatten s →
    ∃ F1 F2, F = F1 ++ F2 ∧ (runSSE s cs).2 = F1 ∧ InvSSE F2 [] (runSSE s cs).1 := by
  induction cs with
  | nil =>
    intro F s hgood hinv
    exact ⟨[], F, rfl, rfl, by simpa using hinv⟩
  | cons c cs ih =>
    intro F s hgood hinv
    have hflat : c ++ cs.flatten = (c :: cs).flatten := by simp
    rw [← hflat] at hinv
    obtain ⟨F1a, F2a, hspla, houta, hinva⟩ := processChunk_inv F hgood c cs.flatten s hinv
    obtain ⟨F1b, F2b, hsplb, houtb, hinvb⟩ := ih F2a (processChunk s c).1
      (fun g hg => hgood g (by rw [hspla]; exact List.mem_append_right _ hg)) hinva
    refine ⟨F1a ++ F1b, F2b, ?_, ?_, hinvb⟩
    · rw [hspla, hsplb, List.append_assoc]
    · rw [runSSE_cons, houta, houtb]

/-- At end of stream, a reachable configuration has emitted everything:
no full frames can still be pending. -/
theorem invSSE_final (F : List (List Nat)) (s : SSEState) (h : InvSSE F [] s) :
    F = [] := by
  rcases h with ⟨_, ⟨k, hk, hdata⟩, heq⟩ | ⟨_, heq, hFne, hsep, hterm⟩
  · cases F with
    | nil => rfl
    | cons f Fs =>
      exfalso
      rw [List.append_nil, hdata, encodeSSE_cons, tailSSE_cons] at heq
      have := congrArg List.length heq
      simp [dataMark, termMark] at this
      omega
  · exfalso
    cases F with
    | nil => exact hFne rfl
    | cons f Fs =>
      rw [List.append_nil, tailSSE_cons] at heq
      cases Fs with
      | nil =>
        rw [Bool.eq_false_iff, Ne, isSuffixOf_iff_ex] at hterm
        exact hterm ⟨f, by simpa [encodeSSE] using heq⟩
      | cons f2 Fs2 =>
        rw [Bool.eq_false_iff, Ne, hasSub_iff_ex] at hsep
        refine hsep ⟨f, tailSSE (f2 :: Fs2), ?_⟩
        rw [heq, encodeSSE_cons, sepMark_eq]
        simp

/-- `_wrap_sse` on any chunking of the encoding of a well-formed frame
sequence emits exactly those frames. -/
theorem wrapSSE_encode (F : List (List Nat)) (hgood : ∀ f ∈ F, goodFrame f = true)
    (cs : List (List Nat)) (hcs : cs.flatten = encodeSSE F) :
    wrapSSE cs = F := by
  have hinv : InvSSE F cs.flatten ⟨[], false⟩ :=
    Or.inl ⟨rfl, ⟨0, by omega, rfl⟩, by simp [hcs]⟩
  obtain ⟨F1, F2, hsplit, hout, hfin⟩ :=
    runSSE_inv cs F ⟨[], false⟩ hgood hinv
  have h2 : F2 = [] := invSSE_final F2 _ hfin
  rw [wrapSSE, hout, hsplit, h2, List.append_nil]

/-! ### Lemmas: the tolerant decoder -/

/-- Induction on the field list alone (the mutual recursor specialised). -/
theorem fields_induction {motive : Fields → Prop} (hnil : motive .fnil)
    (hcons : ∀ n s d rest, motive rest → motive (.fcons n s d rest)) :
    ∀ fs, motive fs
  | .fnil => hnil
  | .fcons n s d rest => hcons n s d rest (fields_induction hnil hcons rest)

/-- Induction on a JSON object alone (the mutual recursor specialised). -/
theorem jmap_induction {motive : JMap → Prop} (hnil : motive .mnil)
    (hcons : ∀ k v rest, motive rest → motive (.mcons k v rest)) :
    ∀ o, motive o
  | .mnil => hnil
  | .mcons k v rest => hcons k v rest (jmap_induction hnil hcons rest)

theorem find_cons_self (n : String) (s : Shape) (d : Option JVal) (rest : Fields) :
    (Fields.fcons n s d rest).find n = some (s, d) := by
  simp [Fields.find]

theorem find_cons_ne (n k : String) (s : Shape) (d : Option JVal) (rest : Fields)
    (h : n ≠ k) : (Fields.fcons n s d rest).find k = rest.find k := by
  simp [Fields.find, h]

theorem find_mem_names (fs : Fields) (k : String) (sd : Shape × Option JVal)
    (h : fs.find k = some sd) : k ∈ fs.names := by
  induction fs using fields_induction with
  | hnil => simp [Fields.find] at h
  | hcons n s d rest ih =>
    by_cases hnk : n = k
    · simp [Fields.names, hnk]
    · rw [find_cons_ne n k s d rest hnk] at h
      simp [Fields.names, ih h]

theorem lookup_mcons_self (n : String) (v : JVal) (rest : JMap) :
    (JMap.mcons n v rest).lookup n = some v := by
  simp [JMap.lookup]

theorem lookup_mcons_ne (n k : String) (v : JVal) (rest : JMap) (h : n ≠ k) :
    (JMap.mcons n v rest).lookup k = rest.lookup k := by
  simp [JMap.lookup, h]

/-- On a scalar shape the tolerant decode returns a validated value
unchanged. -/
theorem decodeValue_scalar_id (s : Shape) (v w : JVal)
    (hs : scalarShape s = true) (h : decodeValue s v = .ok w) : w = v := by
  cases s <;> simp [scalarShape] at hs <;> cases v <;>
    simp [decodeValue] at h <;> simp [h]

/-- Claim C2: tolerant decoding of a payload whose present fields all validate
succeeds; each declared field that is present decodes to its payload value
(literally so for scalar shapes), and each absent one is filled with its
declared default, else its shape's zero value.  Decoding never fails
because a field is absent. -/
theorem partial_model_tolerant_decode (fs : Fields) (p : JMap)
    (hnd : fs.names.Nodup)
    (hok : ∀ k s d v, fs.find k = some (s, d) → p.lookup k = some v →
      ∃ w, decodeValue s v = .ok w) :
    ∃ out, decodeFields fs p = .ok out ∧
      (∀ k s d, fs.find k = some (s, d) → p.lookup k = none →
        out.lookup k = some (d.getD (zeroVal s))) ∧
      (∀ k s d v, fs.find k = some (s, d) → p.lookup k = some v →
        ∃ w, decodeValue s v = .ok w ∧ out.lookup k = some w ∧
          (scalarShape s = true → w = v)) := by
  induction fs using fields_induction with
  | hnil =>
    refine ⟨.mnil, by simp [decodeFields], ?_, ?_⟩
    · intro k s d hfind
      simp [Fields.find] at hfind
    · intro k s d v hfind
      simp [Fields.find] at hfind
  | hcons n s d rest ih =>
    have hnd2 : rest.names.Nodup := by
      simpa [Fields.names] using (List.nodup_cons.mp (by simpa [Fields.names] using hnd)).2
    have hnmem : n ∉ rest.names := by
      simpa [Fields.names] using (List.nodup_cons.mp (by simpa [Fields.names] using hnd)).1
    have hokr : ∀ k s2 d2 v2, rest.find k = some (s2, d2) → p.lookup k = some v2 →
        ∃ w, decodeValue s2 v2 = .ok w := by
      intro k s2 d2 v2 hfk hlk
      have hkmem := find_mem_names rest k _ hfk
      have hnk : n ≠ k := fun heq => hnmem (heq ▸ hkmem)
      exact hok k s2 d2 v2 (by rw [find_cons_ne n k s d rest hnk]; exact hfk) hlk
    obtain ⟨out2, hout2, habs2, hpres2⟩ := ih hnd2 hokr
    cases hv : p.lookup n with
    | some v =>
      obtain ⟨w, hw⟩ := hok n s d v (find_cons_self n s d rest) hv
      refine ⟨.mcons n w out2, ?_, ?_, ?_⟩
      · simp only [decodeFields, hv, hw, hout2, Except.map]
      · intro k s2 d2 hfk hlk
        by_cases hnk : n = k
        · subst hnk
          rw [hv] at hlk
          cases hlk
        · rw [find_cons_ne n k s d rest hnk] at hfk
          rw [lookup_mcons_ne n k w out2 hnk]
          exact habs2 k s2 d2 hfk hlk
      · intro k s2 d2 v2 hfk hlk
        by_cases hnk : n = k
        · subst hnk
          rw [find_cons_self] at hfk
          obtain ⟨rfl, rfl⟩ : s2 = s ∧ d2 = d := by
            cases hfk
            exact ⟨rfl, rfl⟩
          rw [hv] at hlk
          cases hlk
          exact ⟨w, hw, lookup_mcons_self n w out2,
            fun hs => decodeValue_scalar_id _ v w hs hw⟩
        · rw [find_cons_ne n k s d rest hnk] at hfk
          obtain ⟨w2, hw2, hl2, hsc2⟩ := hpres2 k s2 d2 v2 hfk hlk
          exact ⟨w2, hw2, by rw [lookup_mcons_ne n k w out2 hnk]; exact hl2, hsc2⟩
    | none =>
      refine ⟨.mcons n (d.getD (zeroVal s)) out2, ?_, ?_, ?_⟩
      · simp only [decodeFields, hv, hout2, Except.map]
      · intro k s2 d2 hfk hlk
        by_cases hnk : n = k
        · subst hnk
          rw [find_cons_self] at hfk
          obtain ⟨rfl, rfl⟩ : s2 = s ∧ d2 = d := by
            cases hfk
            exact ⟨rfl, rfl⟩
          exact lookup_mcons_self n _ out2
        · rw [find_cons_ne n k s d rest hnk] at hfk
          rw [lookup_mcons_ne n k _ out2 hnk]
          exact habs2 k s2 d2 hfk hlk
      · intro k s2 d2 v2 hfk hlk
        by_cases hnk : n = k
        · subst hnk
          rw [hv] at hlk
          cases hlk
        · rw [find_cons_ne n k s d rest hnk] at hfk
          obtain ⟨w2, hw2, hl2, hsc2⟩ := hpres2 k s2 d2 v2 hfk hlk
          exact ⟨w2, hw2, by rw [lookup_mcons_ne n k _ out2 hnk]; exact hl2, hsc2⟩

/-- Claim C2 (witness): the repository's own partial-model test case — only
`name1` present — fills `name2` with `""`, `name3` with `0`, a declared
default `"blibly"` is preferred, and an `Optional` field becomes null. -/
theorem partial_model_tolerant_decode_witness :
    ∃ out, decodeFields
      (.fcons "name1" .sstr none (.fcons "name2" .sstr (some (.jstr "blibly"))
        (.fcons "name3" .snum none (.fcons "opt" (.sopt .sstr) none .fnil))))
      (.mcons "name1" (.jstr "John") .mnil) = .ok out ∧
      out.lookup "name1" = some (.jstr "John") ∧
      out.lookup "name2" = some (.jstr "blibly") ∧
      out.lookup "name3" = some (.jnum 0) ∧
      out.lookup "opt" = some .jnull := by
  obtain ⟨out, hout, habs, hpres⟩ := partial_model_tolerant_decode
    (.fcons "name1" .sstr none (.fcons "name2" .sstr (some (.jstr "blibly"))
      (.fcons "name3" .snum none (.fcons "opt" (.sopt .sstr) none .fnil))))
    (.mcons "name1" (.jstr "John") .mnil)
    (by simp [Fields.names])
    (by
      intro k s d v hfind hlk
      simp only [Fields.find] at hfind
      by_cases h1 : k = "name1"
      · subst h1
        simp [JMap.lookup] at hlk
        subst hlk
        simp at hfind
        obtain ⟨rfl, rfl⟩ := hfind
        exact ⟨.jstr "John", rfl⟩
      · simp [JMap.lookup, Ne.symm h1] at hlk)
  refine ⟨out, hout, ?_, ?_, ?_, ?_⟩
  · have := hpres "name1" .sstr none (.jstr "John") (by simp [Fields.find]) (by decide)
    obtain ⟨w, hw, hl, hsc⟩ := this
    rw [hl, hsc rfl]
  · simpa using habs "name2" .sstr (some (.jstr "blibly")) (by simp [Fields.find]) (by decide)
  · simpa using habs "name3" .snum none (by simp [Fields.find]) (by decide)
  · simpa using habs "opt" (.sopt .sstr) none (by simp [Fields.find]) (by decide)

/-- Claim C6: when a present field's value cannot be coerced to its declared
shape, the tolerant decoder surfaces a validation error whose location path
starts with the offending field's name and whose payload is the received
value at the end of that path. -/
theorem partial_model_error_names_field (fs : Fields) (p : JMap)
    (hnd : fs.names.Nodup) (k : String) (s : Shape) (d : Option JVal)
    (v : JVal) (e0 : PErr) (hfind : fs.find k = some (s, d))
    (hlk : p.lookup k = some v) (herr : decodeValue s v = .error e0) :
    ∃ k2 s2 d2 v2 path got, decodeFields fs p = .error ⟨k2 :: path, got⟩ ∧
      fs.find k2 = some (s2, d2) ∧ p.lookup k2 = some v2 ∧
      decodeValue s2 v2 = .error ⟨path, got⟩ := by
  induction fs using fields_induction with
  | hnil => simp [Fields.find] at hfind
  | hcons n s1 d1 rest ih =>
    have hnd2 : rest.names.Nodup := by
      simpa [Fields.names] using (List.nodup_cons.mp (by simpa [Fields.names] using hnd)).2
    have hnmem : n ∉ rest.names := by
      simpa [Fields.names] using (List.nodup_cons.mp (by simpa [Fields.names] using hnd)).1
    cases hv : p.lookup n with
    | some v0 =>
      cases hd : decodeValue s1 v0 with
      | error e =>
        refine ⟨n, s1, d1, v0, e.path, e.got, ?_, find_cons_self n s1 d1 rest, hv, ?_⟩
        · simp only [decodeFields, hv, hd]
        · rw [hd]
      | ok w =>
        have hnk : n ≠ k := by
          rintro rfl
          rw [find_cons_self] at hfind
          obtain ⟨rfl, rfl⟩ : s = s1 ∧ d = d1 := by
            cases hfind
            exact ⟨rfl, rfl⟩
          rw [hv] at hlk
          cases hlk
          rw [hd] at herr
          cases herr
        rw [find_cons_ne n k s1 d1 rest hnk] at hfind
        obtain ⟨k2, s2, d2, v2, path, got, hrest, hfind2, hlk2, herr2⟩ :=
          ih hnd2 hfind
        have hk2 : n ≠ k2 := by
          rintro rfl
          exact hnmem (find_mem_names rest n _ hfind2)
        refine ⟨k2, s2, d2, v2, path, got, ?_,
          by rw [find_cons_ne n k2 s1 d1 rest hk2]; exact hfind2, hlk2, herr2⟩
        simp only [decodeFields, hv, hd, hrest, Except.map]
    | none =>
      have hnk : n ≠ k := by
        rintro rfl
        rw [hv] at hlk
        cases hlk
      rw [find_cons_ne n k s1 d1 rest hnk] at hfind
      obtain ⟨k2, s2, d2, v2, path, got, hrest, hfind2, hlk2, herr2⟩ :=
        ih hnd2 hfind
      have hk2 : n ≠ k2 := by
        rintro rfl
        exact hnmem (find_mem_names rest n _ hfind2)
      refine ⟨k2, s2, d2, v2, path, got, ?_,
        by rw [find_cons_ne n k2 s1 d1 rest hk2]; exact hfind2, hlk2, herr2⟩
      simp only [decodeFields, hv, hrest, Except.map]

/-- Claim C6 (witness): the repository's own failing test payload
`{"name1": 1, "name2": "2"}` against a string-typed `name1` surfaces a
validation error located at `name1` carrying the received `1`. -/
theorem partial_model_error_names_field_witness :
    ∃ k2 s2 d2 v2 path got,
      decodeFields (.fcons "name1" .sstr none (.fcons "name2" .sstr none .fnil))
        (.mcons "name1" (.jnum 1) (.mcons "name2" (.jstr "2") .mnil)) =
        .error ⟨k2 :: path, got⟩ ∧
      (Fields.fcons "name1" .sstr none (.fcons "name2" .sstr none .fnil)).find k2 =
        some (s2, d2) ∧
      (JMap.mcons "name1" (.jnum 1) (.mcons "name2" (.jstr "2") .mnil)).lookup k2 =
        some v2 ∧
      decodeValue s2 v2 = .error ⟨path, got⟩ :=
  partial_model_error_names_field _ _ (by simp [Fields.names]) "name1" .sstr none
    (.jnum 1) ⟨[], .jnum 1⟩ (by simp [Fields.find]) rfl rfl

/-! ### Lemmas: `construct_model_recursive` and unknown keys -/

/-- A payload with an undeclared key makes the `payload.items()` loop fail
on some entry. -/
theorem buildMapped_error_of_unknown (fs : Fields) (p : JMap) (k : String)
    (hfind : fs.find k = none) (hk : k ∈ p.keys) :
    ∃ e, buildMapped fs p = .error e := by
  induction p using jmap_induction with
  | hnil => simp [JMap.keys] at hk
  | hcons k0 v rest ih =>
    cases hf : fs.find k0 with
    | none => exact ⟨.keyError k0, by simp [buildMapped, hf]⟩
    | some sd =>
      have hk2 : k ∈ rest.keys := by
        rcases (by simpa [JMap.keys] using hk : k = k0 ∨ k ∈ rest.keys) with rfl | h
        · rw [hf] at hfind
          cases hfind
        · exact h
      obtain ⟨e, he⟩ := ih hk2
      cases hca : constructForAnn sd.1 v with
      | error e2 => exact ⟨e2, by simp only [buildMapped, hf, hca]; rfl⟩
      | ok w => exact ⟨e, by simp only [buildMapped, hf, hca, he]; rfl⟩

/-- When every top-level value is a scalar, no nested construction can fail
first: the failure is precisely the `KeyError` of an undeclared key. -/
theorem buildMapped_keyError_of_scalar (fs : Fields) (p : JMap) (k : String)
    (hfind : fs.find k = none) (hk : k ∈ p.keys) (hscal : p.scalarVals = true) :
    ∃ k2, buildMapped fs p = .error (.keyError k2) ∧ fs.find k2 = none ∧
      k2 ∈ p.keys := by
  induction p using jmap_induction with
  | hnil => simp [JMap.keys] at hk
  | hcons k0 v rest ih =>
    have hsv : v.isScalar = true ∧ rest.scalarVals = true := by
      simpa [JMap.scalarVals, Bool.and_eq_true] using hscal
    cases hf : fs.find k0 with
    | none =>
      exact ⟨k0, by simp [buildMapped, hf], hf, by simp [JMap.keys]⟩
    | some sd =>
      have hk2 : k ∈ rest.keys := by
        rcases (by simpa [JMap.keys] using hk : k = k0 ∨ k ∈ rest.keys) with rfl | h
        · rw [hf] at hfind
          cases hfind
        · exact h
      have hca : constructForAnn sd.1 v = .ok v := by
        cases v with
        | jobj o => simp [JVal.isScalar] at hsv
        | jlist l => simp [JVal.isScalar] at hsv
        | jnull => rfl
        | jstr s => rfl
        | jnum n => rfl
      obtain ⟨k2, he, hf2, hm2⟩ := ih hk2 hsv.2
      exact ⟨k2, by simp only [buildMapped, hf, hca, he]; rfl, hf2,
        by simp [JMap.keys, hm2]⟩

/-- Claim C10 (counterexample): the claim promises a `KeyError` for every payload
with an undeclared key, but when an earlier declared field holds a list of
models with a non-dict element, `construct_model_recursive(args[0], item)`
calls `.items()` on that element and raises `AttributeError` first: on
`{"models": ["x"], "unknown": 1}` against `models: list[Inner]` the result
is an `AttributeError`, not a `KeyError`. -/
theorem construct_model_recursive_attr_error :
    constructModelRecursive
      (.fcons "models" (.slist (.sobj (.fcons "name" .sstr none .fnil))) none .fnil)
      (.mcons "models" (.jlist (.acons (.jstr "x") .anil))
        (.mcons "unknown" (.jnum 1) .mnil)) = .error .attrError ∧
    "unknown" ∈ (JMap.mcons "models" (.jlist (.acons (.jstr "x") .anil))
        (.mcons "unknown" (.jnum 1) .mnil)).keys ∧
    (Fields.fcons "models" (.slist (.sobj (.fcons "name" .sstr none .fnil)))
      none .fnil).find "unknown" = none ∧
    ∀ k, constructModelRecursive
      (.fcons "models" (.slist (.sobj (.fcons "name" .sstr none .fnil))) none .fnil)
      (.mcons "models" (.jlist (.acons (.jstr "x") .anil))
        (.mcons "unknown" (.jnum 1) .mnil)) ≠ .error (.keyError k) := by
  refine ⟨rfl, by simp [JMap.keys], by simp [Fields.find], ?_⟩
  intro k hk
  rw [show constructModelRecursive
      (.fcons "models" (.slist (.sobj (.fcons "name" .sstr none .fnil))) none .fnil)
      (.mcons "models" (.jlist (.acons (.jstr "x") .anil))
        (.mcons "unknown" (.jnum 1) .mnil)) = .error .attrError from rfl] at hk
  simp at hk

/-- Claim C10 (amended): `construct_model_recursive` never accepts a payload
containing an undeclared key: it raises an error — the `KeyError` from the
unguarded `model.model_fields[k]` lookup whenever no recursive construction
can fail first, in particular whenever every top-level payload value is a
scalar; a malformed list-of-models element may instead surface the
`AttributeError` of its `.items()` call. -/
theorem construct_model_recursive_unknown_key (fs : Fields) (p : JMap)
    (k : String) (hfind : fs.find k = none) (hk : k ∈ p.keys) :
    (∃ e, constructModelRecursive fs p = .error e) ∧
    (p.scalarVals = true → ∃ k2, constructModelRecursive fs p =
      .error (.keyError k2) ∧ fs.find k2 = none ∧ k2 ∈ p.keys) := by
  constructor
  · obtain ⟨e, he⟩ := buildMapped_error_of_unknown fs p k hfind hk
    exact ⟨e, by simp [constructModelRecursive, he, Except.map]⟩
  · intro hscal
    obtain ⟨k2, he, hf2, hm2⟩ := buildMapped_keyError_of_scalar fs p k hfind hk hscal
    exact ⟨k2, by simp [constructModelRecursive, he, Except.map], hf2, hm2⟩

/-- Claim C10 (witness): a flat payload `{"name": "x", "unknown": 1}` against a
model declaring only `name` fails with the `KeyError` for `"unknown"`. -/
theorem construct_model_recursive_unknown_key_witness :
    ∃ e, constructModelRecursive (.fcons "name" .sstr none .fnil)
      (.mcons "name" (.jstr "x") (.mcons "unknown" (.jnum 1) .mnil)) = .error e :=
  (construct_model_recursive_unknown_key (.fcons "name" .sstr none .fnil)
    (.mcons "name" (.jstr "x") (.mcons "unknown" (.jnum 1) .mnil)) "unknown"
    (by simp [Fields.find]) (by simp [JMap.keys])).1

/-! ### Lemmas: the version reconciler -/

theorem fillModel_temperature (p : VersionProperties) :
    (fillModel p).temperature = p.temperature := by
  cases hp : p.model <;> simp [fillModel, hp]

theorem fillModel_provider (p : VersionProperties) :
    (fillModel p).provider = p.provider := by
  cases hp : p.model <;> simp [fillModel, hp]

theorem fillModel_instructions (p : VersionProperties) :
    (fillModel p).instructions = p.instructions := by
  cases hp : p.model <;> simp [fillModel, hp]

theorem fillModel_model_some (p : VersionProperties) (m : String)
    (h : p.model = some m) : (fillModel p).model = some m := by
  simp [fillModel, h]

/-- Claim C3: with neither a call version nor a model override, the reconciler
returns the agent's declared version when set, else the process-wide
default: the literal alias "production" when the configuration value is
unset or a non-numeric string other than a recognized alias, the alias
itself when recognized, and the integer iteration when the string is
numeric. -/
theorem sanitize_version_fallback (envVar : Option String) :
    (∀ a, sanitizeVersion (some (.name a)) envVar none none = .name a) ∧
    (∀ n, sanitizeVersion (some (.iteration n)) envVar none none = .iteration n) ∧
    (envVar = none → sanitizeVersion none envVar none none = .name "production") ∧
    (∀ s, envVar = some s → s ∈ recognizedEnvs →
      sanitizeVersion none envVar none none = .name s) ∧
    (∀ s, envVar = some s → s ∉ recognizedEnvs → parseIntString s = none →
      sanitizeVersion none envVar none none = .name "production") ∧
    (∀ s n, envVar = some s → s ∉ recognizedEnvs → parseIntString s = some n →
      sanitizeVersion none envVar none none = .iteration n) := by
  refine ⟨fun a => rfl, fun n => rfl, ?_, ?_, ?_, ?_⟩
  · rintro rfl
    rfl
  · rintro s rfl hmem
    have hne : s ≠ "" := by
      rintro rfl
      simp [recognizedEnvs] at hmem
    simp [sanitizeVersion, Option.orElse, globalDefaultVersionReference, hne, hmem]
  · rintro s rfl hmem htoi
    by_cases hne : s = ""
    · subst hne
      rfl
    · simp [sanitizeVersion, Option.orElse, globalDefaultVersionReference, hne, hmem, htoi]
  · rintro s n rfl hmem htoi
    have hne : s ≠ "" := by
      rintro rfl
      rw [show parseIntString "" = none from rfl] at htoi
      cases htoi
    simp [sanitizeVersion, Option.orElse, globalDefaultVersionReference, hne, hmem, htoi]

/-- Claim C3 (witness): a numeric configured default "7" becomes the integer
iteration 7 rather than the alias string. -/
theorem sanitize_version_fallback_witness :
    sanitizeVersion none (some "7") none none = .iteration 7 :=
  (sanitize_version_fallback (some "7")).2.2.2.2.2 "7" 7 rfl (by decide) (by decide)

/-- Claim C4: in the field-by-field merge of a call-supplied properties bag over
the agent's default properties, every property explicitly supplied by the
call wins over the agent's default, including explicit falsy values such as
a temperature of 0. -/
theorem sanitize_version_call_props_win (envVar : Option String)
    (q pp : VersionProperties) :
    ∃ r, sanitizeVersion (some (.props q)) envVar (some (.props pp)) none =
      .props r ∧
      (∀ t, pp.temperature = some t → r.temperature = some t) ∧
      (∀ m, pp.model = some m → r.model = some m) ∧
      (∀ pr, pp.provider = some pr → r.provider = some pr) ∧
      (∀ i, pp.instructions = some i → r.instructions = some i) := by
  refine ⟨fillModel (mergeProps q pp), rfl, ?_, ?_, ?_, ?_⟩
  · intro t ht
    rw [fillModel_temperature]
    simp [mergeProps, ht]
  · intro m hm
    exact fillModel_model_some _ m (by simp [mergeProps, hm])
  · intro pr hpr
    rw [fillModel_provider]
    simp [mergeProps, hpr]
  · intro i hi
    rw [fillModel_instructions]
    simp [mergeProps, hi]

/-- Claim C4 (witness): an explicit call temperature of 0 survives an agent
default temperature of 0.7. -/
theorem sanitize_version_call_props_win_witness :
    ∃ r, sanitizeVersion (some (.props ⟨none, none, some (7 / 10), none⟩)) none
      (some (.props ⟨none, none, some 0, none⟩)) none = .props r ∧
      r.temperature = some 0 := by
  obtain ⟨r, hr, ht, _, _, _⟩ := sanitize_version_call_props_win none
    ⟨none, none, some (7 / 10), none⟩ ⟨none, none, some 0, none⟩
  exact ⟨r, hr, ht 0 rfl⟩

/-- Claim C5: a call that supplies a remote-reference version (alias or integer
iteration) together with a model override yields a fresh properties bag
holding only the overriding model — the empty instructions template — with
the remote reference discarded: the result does not depend on the reference
or on the agent's defaults, so no merge with the remote reference ever
happens. -/
theorem sanitize_version_model_override_discards_remote
    (agentVersion : Option VersionRef) (envVar : Option String) :
    (∀ s m, sanitizeVersion agentVersion envVar (some (.name s)) (some m) =
      .props ⟨some m, none, none, none⟩) ∧
    (∀ n m, sanitizeVersion agentVersion envVar (some (.iteration n)) (some m) =
      .props ⟨some m, none, none, none⟩) :=
  ⟨fun s m => rfl, fun n m => rfl⟩

/-! ### Lemmas: the stream decode loop and the retry policies -/

/-- Claim C7: a non-terminal frame whose payload fails output validation is
skipped — the remaining frames decode to the same outputs, with the failure
recorded as a diagnostic — whereas a terminal frame failing the strict
decode is fatal: the error carries the originating run id and the offending
raw output. -/
theorem stream_validation_skip_and_fatal (fs : Fields) :
    (∀ (c : StreamChunk) (rest : List StreamChunk) (e : PErr)
      (outs : List JMap) (ds : List PErr), rest ≠ [] →
      decodeFields fs c.payload = .error e →
      streamRun fs rest = .ok (outs, ds) →
      streamRun fs (c :: rest) = .ok (outs, e :: ds)) ∧
    (∀ (pre : List StreamChunk) (c : StreamChunk),
      strictFields fs c.payload = false →
      streamRun fs (pre ++ [c]) = .error ⟨c.runId, c.payload⟩) := by
  constructor
  · intro c rest e outs ds hne herr hrest
    cases rest with
    | nil => exact absurd rfl hne
    | cons r rest2 => simp only [streamRun, herr, hrest]
  · intro pre c hstrict
    induction pre with
    | nil => simp only [List.nil_append, streamRun, hstrict, Bool.false_eq_true,
        if_false]
    | cons p0 pre2 ih =>
      rcases hsplit : pre2 ++ [c] with _ | ⟨c2, rest2⟩
      · exact absurd hsplit (by simp)
      · rw [hsplit] at ih
        have : (p0 :: pre2) ++ [c] = p0 :: c2 :: rest2 := by
          rw [List.cons_append, hsplit]
        rw [this]
        cases hdc : decodeFields fs p0.payload with
        | ok out => simp only [streamRun, hdc, ih]
        | error e => simp only [streamRun, hdc, ih]

/-- Claim C7 (witness): the repository's stream-validation test — a failing
middle frame is skipped with a diagnostic while the remaining frame still
decodes; a single failing terminal frame raises with run id "1" and the
offending payload. -/
theorem stream_validation_skip_and_fatal_witness :
    streamRun (.fcons "message" .sstr none .fnil)
      (⟨"1", .mcons "message" (.jnum 1) .mnil⟩ ::
        [⟨"1", .mcons "message" (.jstr "hello") .mnil⟩]) =
      .ok ([.mcons "message" (.jstr "hello") .mnil], [⟨["message"], .jnum 1⟩]) ∧
    streamRun (.fcons "message" .sstr none .fnil)
      ([] ++ [⟨"1", .mcons "message" (.jnum 1) .mnil⟩]) =
      .error ⟨"1", .mcons "message" (.jnum 1) .mnil⟩ :=
  ⟨(stream_validation_skip_and_fatal (.fcons "message" .sstr none .fnil)).1
      ⟨"1", .mcons "message" (.jnum 1) .mnil⟩
      [⟨"1", .mcons "message" (.jstr "hello") .mnil⟩]
      ⟨["message"], .jnum 1⟩
      [.mcons "message" (.jstr "hello") .mnil] [] (by simp) rfl rfl,
    (stream_validation_skip_and_fatal (.fcons "message" .sstr none .fnil)).2
      [] ⟨"1", .mcons "message" (.jnum 1) .mnil⟩ rfl⟩

/-- Exhausting the budget on connection failures costs exactly the attempts
used plus the remaining budget. -/
theorem retryGo_all_connection (rs : List Attempt) : ∀ (b used : Nat),
    rs.length = b → (∀ r ∈ rs, r = .connectionFailure) →
    retryGo b rs used (some .connection) =
      .fatal (some .connection) (used + b) := by
  induction rs with
  | nil =>
    intro b used hb _
    subst hb
    rfl
  | cons r rs2 ih =>
    intro b used hb hall
    subst hb
    rw [hall r (by simp)]
    simp only [retryGo, List.length_cons]
    have := ih rs2.length (used + 1) rfl (fun x hx => hall x (by simp [hx]))
    rw [this]
    have harith : used + 1 + rs2.length = used + (rs2.length + 1) := by omega
    rw [harith]

/-- Claim C8: a rate-limited attempt followed by a success is retried exactly
once and returns the success payload after two attempts; with
`max_retry_count = N`, persistent connection failure becomes a fatal
connection error after exactly N attempts. -/
theorem run_retry_counts :
    (∀ (d : Nat) (p : String) (rest : List Attempt) (mx : Nat), 2 ≤ mx →
      runWithRetry mx (.rateLimited d :: .success p :: rest) = .ok p 2) ∧
    (∀ (N : Nat) (rs : List Attempt), 1 ≤ N → rs.length = N →
      (∀ r ∈ rs, r = .connectionFailure) →
      runWithRetry N rs = .fatal (some .connection) N) := by
  constructor
  · intro d p rest mx hmx
    obtain ⟨k, rfl⟩ : ∃ k, mx = k + 2 := ⟨mx - 2, by omega⟩
    rfl
  · intro N rs hN hlen hall
    cases rs with
    | nil => simp at hlen; omega
    | cons r rs2 =>
      subst hlen
      rw [runWithRetry]
      simp only [List.length_cons]
      rw [hall r (by simp)]
      simp only [retryGo]
      have := retryGo_all_connection rs2 rs2.length 1 rfl
        (fun x hx => hall x (by simp [hx]))
      rw [this]
      have harith : 1 + rs2.length = rs2.length + 1 := by omega
      rw [harith]

/-- Claim C8 (witness): with a budget of 5, a 429 then a success makes exactly
two attempts and returns the payload; five straight connection failures
exhaust the budget after exactly five attempts. -/
theorem run_retry_counts_witness :
    runWithRetry 5 [.rateLimited 10, .success "ok"] = .ok "ok" 2 ∧
    runWithRetry 5 [.connectionFailure, .connectionFailure, .connectionFailure,
      .connectionFailure, .connectionFailure] = .fatal (some .connection) 5 :=
  ⟨run_retry_counts.1 10 "ok" [] 5 (by omega),
    run_retry_counts.2 5 _ (by omega) rfl (by
      intro r hr
      simp at hr
      simp [hr])⟩

/-- Claim C9: a reply that gets a 404 is retried exactly once — a 404 then a
success returns the success after exactly two requests, a persistent 404
surfaces the second error after exactly two requests — while any other
failing status is raised immediately after one request. -/
theorem reply_retry_once :
    (∀ (code p : String) (rest : List ReplyResp),
      replyRun (.err 404 code :: .ok p :: rest) = .ok p 2) ∧
    (∀ (code : String) (s2 : Nat) (code2 : String) (rest : List ReplyResp),
      replyRun (.err 404 code :: .err s2 code2 :: rest) = .failure s2 code2 2) ∧
    (∀ (s : Nat) (code : String) (rest : List ReplyResp), s ≠ 404 →
      replyRun (.err s code :: rest) = .failure s code 1) := by
  refine ⟨fun code p rest => rfl, fun code s2 code2 rest => rfl, ?_⟩
  intro s code rest hs
  simp [replyRun, hs]

/-- Claim C9 (witness): the repository's reply tests — a 404 then a success gives
the success after two requests; a 400 is raised immediately after one. -/
theorem reply_retry_once_witness :
    replyRun [.err 404 "object_not_found", .ok "Austin"] = .ok "Austin" 2 ∧
    replyRun [.err 400 "whatever"] = .failure 400 "whatever" 1 :=
  ⟨reply_retry_once.1 "object_not_found" "Austin" [],
    reply_retry_once.2.2 400 "whatever" [] (by omega)⟩

/-- Claim C1 (counterexample): the claim quantifies over every finite byte
sequence, but on the ill-formed bytes `b"data: A\n\nB"` the chunking
`[b"data: A\n\n", b"B"]` makes `_wrap_sse` emit the frame `b"A"` while the
same bytes in one chunk emit nothing: the terminator is only recognized at
the end of a chunk, so an ill-formed continuation after it changes the
outcome. -/
theorem wrapSSE_not_chunking_invariant :
    List.flatten [[100, 97, 116, 97, 58, 32, 65, 10, 10], [66]] =
      List.flatten [[100, 97, 116, 97, 58, 32, 65, 10, 10, 66]] ∧
    wrapSSE [[100, 97, 116, 97, 58, 32, 65, 10, 10], [66]] = [[65]] ∧
    wrapSSE [[100, 97, 116, 97, 58, 32, 65, 10, 10, 66]] = [] := by
  refine ⟨rfl, ?_, ?_⟩ <;> decide

/-- Claim C1 (amended): for a well-formed stream — the encoding of frames that
contain no `b"\n\n"` and do not end with `b"\n"` — `_wrap_sse` emits, for
every chunking of the bytes, exactly the frame sequence, which is also what
the single-chunk run emits and what splitting on the frame delimiters
yields. -/
theorem wrapSSE_chunking_invariant (F cs : List (List Nat))
    (hF : ∀ f ∈ F, goodFrame f = true) (hcs : cs.flatten = encodeSSE F) :
    wrapSSE cs = wrapSSE [encodeSSE F] ∧ wrapSSE cs = F := by
  have h1 := wrapSSE_encode F hF cs hcs
  have h2 := wrapSSE_encode F hF [encodeSSE F] (by simp)
  exact ⟨h1.trans h2.symm, h1⟩

/-- Claim C1 (witness): the messy chunking of `b"data: x\n\ndata: y\n\n"` from the
repository's own stream test reassembles to the frames `b"x"`, `b"y"`. -/
theorem wrapSSE_chunking_invariant_witness :
    wrapSSE [[100, 97, 116], [97, 58, 32, 120], [10], [10, 100, 97, 116, 97],
      [58, 32, 121, 10, 10]] = [[120], [121]] :=
  (wrapSSE_chunking_invariant [[120], [121]] _
    (fun f hf => by
      have hall : List.all [[120], [121]] goodFrame = true := by decide
      exact List.all_eq_true.mp hall f hf)
    (by decide)).2

end WorkflowAI
